import Mathlib

/-!
Verification development for the `trs80-utilities` repository.

Two C programs are shallowly embedded:
  * `edtasmcvt` (src/edtasmcvt/edtasmcvt.c): converts TRS-80 EDTASM
    assembler source files to plain text via a four-state byte machine.
  * `stripcmd` (src/stripcmd/stripcmd.c): parses TRS-80 CMD load-image
    files, reports the records, and optionally copies the stream minus
    trailing bytes after the transfer-address record.

Bytes are modelled as `Nat` (values 0..255 as delivered by `fgetc`);
machine-integer wraparound is made explicit with `% 2^w` where the C
code uses a fixed-width type and the width can matter.  Output streams
(`stdout` text, the copied file) are modelled as `List Nat` of bytes;
the CMD reporter's `printf` lines are modelled as an inductive type of
report lines.  Each embedded function returns, besides its outputs, the
`int` value the corresponding C `return` statement produces, so that
process exit codes are visible.
-/

namespace Edtasm

/-- `#define HEADERCHAR 0xd3` -/
def HEADERCHAR : Nat := 0xd3

/-- `#define EOLCHAR 0x0d` -/
def EOLCHAR : Nat := 0x0d

/-- `#define EOFCHAR 0x1a` -/
def EOFCHAR : Nat := 0x1a

/-- `#define LINENUMCHAR(c) ((c) >= 0xb0 && (c) <= 0xb9)` -/
def LINENUMCHAR (c : Nat) : Bool := 0xb0 ≤ c && c ≤ 0xb9

/-- `enum edtasm_state` from edtasmcvt.c. -/
inductive EState where
  | hdr
  | fname
  | linenum
  | linetxt
deriving DecidableEq, Repr

/-- The local variables of `process_file` in edtasmcvt.c:
`state`, `fnc`, `lncc`, `tlcc`.  The counters are C `int`s that only
ever grow by 1 from 0 and are reset; they are modelled as `Nat`. -/
structure ESt where
  state : EState
  fnc : Nat
  lncc : Nat
  tlcc : Nat
deriving DecidableEq, Repr

/-- Initial locals of `process_file`: `state = ES_HDR`, counters zero. -/
def eInit : ESt := ⟨.hdr, 0, 0, 0⟩

/-- Which program point ended the run of `process_file`:
 * `exhausted`  : `fgetc` returned EOF, the while loop fell through (`return 0`);
 * `sentinel`   : byte `EOFCHAR` seen in state `ES_LINENUM` (`return 0`);
 * `badFormat`  : "Unexpected file format." (`return 2`);
 * `badLineNum` : "Bad line number." (`return 2`);
 * `badSep`     : "Unexpected character following line number." (`return 2`). -/
inductive EReason where
  | exhausted
  | sentinel
  | badFormat
  | badLineNum
  | badSep
deriving DecidableEq, Repr

/-- Result of running `process_file` on a byte list: the returned `int`,
the bytes written to the output stream, which `return` fired, and the
input bytes left unread at that point. -/
structure ERes where
  code : Nat
  out : List Nat
  reason : EReason
  rest : List Nat
deriving DecidableEq, Repr

/-- Outcome of one iteration of the `while` loop body. -/
inductive EStep where
  | cont (st : ESt) (out : List Nat)
  | halt (code : Nat) (reason : EReason)
deriving DecidableEq, Repr

/-- The bytes of the literal `"FILENAME: "` printed by the `ES_FNAME` case. -/
def fnameBanner : List Nat := [70, 73, 76, 69, 78, 65, 77, 69, 58, 32]

/-- The `case ES_LINENUM` body of `process_file` (also reached by
fall-through from `ES_HDR` on a line-number byte).  `sn` is the global
`Show_Linenums` flag.  `ch & 0x7f` is the high-bit-cleared digit. -/
def linenumCase (sn : Bool) (st : ESt) (ch : Nat) : EStep :=
  if LINENUMCHAR ch then
    let out : List Nat := if sn then [Nat.land ch 0x7f] else []
    if st.lncc + 1 = 5 then .cont { st with lncc := 0, state := .linetxt } out
    else .cont { st with lncc := st.lncc + 1 } out
  else if ch = EOFCHAR then .halt 0 .sentinel
  else .halt 2 .badLineNum

/-- One iteration of the `while ((ch = fgetc(infile)) != -1)` loop body of
`process_file` in edtasmcvt.c, covering the `ES_HDR` prelude (with its
`continue` on `HEADERCHAR` and fall-through into the switch on a
line-number byte) and the `switch` on the state.
`sn` = `Show_Linenums`, `sh` = `show_hdr`, `cv` = `cvt_newerfmt`. -/
def estep (sn sh cv : Bool) (st : ESt) (ch : Nat) : EStep :=
  match st.state with
  | .hdr =>
      if ch = HEADERCHAR then .cont { st with state := .fname } []
      else if LINENUMCHAR ch then linenumCase sn { st with state := .linenum } ch
      else .halt 2 .badFormat
  | .fname =>
      let out : List Nat :=
        if sh then (if st.fnc = 0 then fnameBanner else []) ++ [ch] else []
      if st.fnc = 5 then
        .cont { st with fnc := 0, state := .linenum }
          (out ++ if sh then [10, 10] else [])
      else .cont { st with fnc := st.fnc + 1 } out
  | .linenum => linenumCase sn st ch
  | .linetxt =>
      if st.tlcc = 0 then
        if ch = 32 ∨ ch = 9 then
          let c := if ch = 32 ∧ cv then 9 else ch
          .cont { st with tlcc := 1 } (if sn then [c] else [])
        else .halt 2 .badSep
      else if ch = EOLCHAR then .cont { st with tlcc := 0, state := .linenum } [10]
      else .cont { st with tlcc := st.tlcc + 1 } [ch]

/-- Run `process_file`'s loop from locals `st` over the remaining input
bytes.  Falling off the end of the input is the `fgetc == -1` exit of the
loop (`return 0`). -/
def erun (sn sh cv : Bool) : ESt → List Nat → ERes
  | _, [] => ⟨0, [], .exhausted, []⟩
  | st, ch :: bs =>
      match estep sn sh cv st ch with
      | .halt code r => ⟨code, [], r, bs⟩
      | .cont st' out =>
          let res := erun sn sh cv st' bs
          ⟨res.code, out ++ res.out, res.reason, res.rest⟩

/-- Prepend bytes to the output stream of a run result. -/
def prependOut (o : List Nat) (r : ERes) : ERes :=
  ⟨r.code, o ++ r.out, r.reason, r.rest⟩

/-- A well-formed EDTASM line record: 5 line-number bytes, a separator,
text free of the end-of-line byte. -/
structure LineRec where
  nums : List Nat
  sep : Nat
  text : List Nat
deriving DecidableEq, Repr

/-- Well-formedness of one line record per the EDTASM format. -/
def wfRec (r : LineRec) : Prop :=
  r.nums.length = 5 ∧ (∀ b ∈ r.nums, LINENUMCHAR b) ∧
  (r.sep = 32 ∨ r.sep = 9) ∧ (∀ b ∈ r.text, b ≠ EOLCHAR)

instance (r : LineRec) : Decidable (wfRec r) := by
  unfold wfRec; infer_instance

/-- The on-disk byte encoding of one line record. -/
def encRec (r : LineRec) : List Nat := r.nums ++ [r.sep] ++ r.text ++ [EOLCHAR]

/-- The on-disk byte encoding of a list of line records. -/
def encRecs : List LineRec → List Nat
  | [] => []
  | r :: rs => encRec r ++ encRecs rs

/-- A full older-variant EDTASM stream: header marker, 6 filename bytes,
the line records, the end-of-file sentinel. -/
def encFile (fn : List Nat) (recs : List LineRec) : List Nat :=
  HEADERCHAR :: fn ++ encRecs recs ++ [EOFCHAR]

/-- The converter's output for one line record: with line numbers shown
(`sn = true`), the high-bit-cleared digits, the (possibly rewritten)
separator, the text, a newline; with line numbers stripped, just the
text and a newline. -/
def lineOut (sn cv : Bool) (r : LineRec) : List Nat :=
  if sn then
    r.nums.map (fun b => Nat.land b 0x7f) ++
      [if r.sep = 32 ∧ cv then 9 else r.sep] ++ r.text ++ [10]
  else r.text ++ [10]

/-- The converter's output for a list of line records. -/
def outRecs (sn cv : Bool) : List LineRec → List Nat
  | [] => []
  | r :: rs => lineOut sn cv r ++ outRecs sn cv rs

end Edtasm

namespace Stripcmd

/-- `#define BLK_LEN(n) ((n) < 3 ? (n) + 254 : (n) - 2)` -/
def BLK_LEN (n : Nat) : Nat := if n < 3 then n + 254 else n - 2

/-- `#define FNAME_SIZE 0xff` -/
def FNAME_SIZE : Nat := 0xff

/-- `#define COMMENT_SIZE 0xff` -/
def COMMENT_SIZE : Nat := 0xff

/-- `enum cmd_header` record-type tag `LOADBLK = 0x01`. -/
def LOADBLK : Nat := 0x01

/-- `enum cmd_header` record-type tag `XFERADDR = 0x02`. -/
def XFERADDR : Nat := 0x02

/-- `enum cmd_header` record-type tag `FNAMEREC = 0x05`. -/
def FNAMEREC : Nat := 0x05

/-- `enum cmd_header` record-type tag `COMMREC = 0x1f`. -/
def COMMREC : Nat := 0x1f

/-- `enum cmd_state` from stripcmd.c. -/
inductive CmdState where
  | CMD_HDR
  | LOADBLK_LEN
  | LOADBLK_ADDRLO
  | LOADBLK_ADDRHI
  | XFER_LEN
  | XFER_ADDRLO
  | XFER_ADDRHI
  | FNAMEREC_LEN
  | FNAMEREC_NAME
  | COMMREC_LEN
  | COMMREC_STRING
  | SKIP_BYTES
  | EXTRA_BYTES
deriving DecidableEq, Repr

/-- The local variables of `process_file` in stripcmd.c.  `load_addr`
and `xfer_addr` are `uint16_t`; `fname_len`/`comment_len` are `uint8_t`;
`fname_idx`, `comment_idx`, `chskip` and `extra_bytes` are
`unsigned int`, so arithmetic on them is taken modulo `2^32`.  The
`fname`/`comment` char buffers are modelled as the list of bytes stored
into them during the current record (each record starts storing at
index 0). -/
structure CmdSt where
  state : CmdState
  load_addr : Nat
  xfer_addr : Nat
  fname : List Nat
  fname_len : Nat
  fname_idx : Nat
  comment : List Nat
  comment_len : Nat
  comment_idx : Nat
  chskip : Nat
  extra_bytes : Nat
deriving DecidableEq, Repr

/-- Initial locals of `process_file`: state `CMD_HDR`, everything zero. -/
def cmdInit : CmdSt := ⟨.CMD_HDR, 0, 0, [], 0, 0, [], 0, 0, 0, 0⟩

/-- One line printed to stdout by `process_file`. -/
inductive RLine where
  | loadAddr (addr len : Nat)
  | xferAddr (addr : Nat)
  | filename (name : List Nat)
  | comment (text : List Nat)
  | extraneous (n : Nat)
  | looksGood
deriving DecidableEq, Repr

/-- Outcome of one iteration of the `switch (state)` body. -/
inductive CStep where
  | ok (st : CmdSt) (rep : List RLine)
  | err (code : Nat) (rep : List RLine)
deriving DecidableEq, Repr

/-- The `switch (state)` body of `process_file` in stripcmd.c for one
input byte `ch` (0..255).  `q` is the global `Quiet` level; per-record
reporting happens `if (!Quiet)`, i.e. when `q = 0`. -/
def cmdStep (q : Nat) (st : CmdSt) (ch : Nat) : CStep :=
  match st.state with
  | .CMD_HDR =>
      if ch = LOADBLK then .ok { st with state := .LOADBLK_LEN } []
      else if ch = XFERADDR then .ok { st with state := .XFER_LEN } []
      else if ch = FNAMEREC then .ok { st with state := .FNAMEREC_LEN } []
      else if ch = COMMREC then .ok { st with state := .COMMREC_LEN } []
      else .err 2 []
  | .LOADBLK_LEN =>
      .ok { st with chskip := BLK_LEN ch % 65536, state := .LOADBLK_ADDRLO } []
  | .LOADBLK_ADDRLO =>
      .ok { st with load_addr := ch, state := .LOADBLK_ADDRHI } []
  | .LOADBLK_ADDRHI =>
      let la := Nat.lor st.load_addr (ch <<< 8) % 65536
      .ok { st with load_addr := la, state := .SKIP_BYTES }
        (if q = 0 then [.loadAddr la st.chskip] else [])
  | .XFER_LEN =>
      .ok { st with chskip := (ch + 65534) % 65536, state := .XFER_ADDRLO } []
  | .XFER_ADDRLO =>
      .ok { st with xfer_addr := ch, state := .XFER_ADDRHI } []
  | .XFER_ADDRHI =>
      let xa := Nat.lor st.xfer_addr (ch <<< 8) % 65536
      let rep : List RLine := if q = 0 then [.xferAddr xa] else []
      if st.chskip ≠ 0 then .err 2 rep
      else .ok { st with xfer_addr := xa, extra_bytes := 0, state := .EXTRA_BYTES } rep
  | .FNAMEREC_LEN =>
      let len := ch % 256
      if len > FNAME_SIZE then .err 2 []
      else .ok { st with fname_len := len, fname_idx := 0, fname := [],
                         state := .FNAMEREC_NAME } []
  | .FNAMEREC_NAME =>
      let nm := st.fname ++ [ch]
      let idx := (st.fname_idx + 1) % 4294967296
      if idx = st.fname_len then
        .ok { st with fname := nm, fname_idx := idx, state := .CMD_HDR }
          (if q = 0 then [.filename nm] else [])
      else .ok { st with fname := nm, fname_idx := idx } []
  | .COMMREC_LEN =>
      let len := ch % 256
      if len > COMMENT_SIZE then .err 2 []
      else .ok { st with comment_len := len, comment_idx := 0, comment := [],
                         state := .COMMREC_STRING } []
  | .COMMREC_STRING =>
      let cm := st.comment ++ [ch]
      let idx := (st.comment_idx + 1) % 4294967296
      if idx = st.comment_len then
        .ok { st with comment := cm, comment_idx := idx, state := .CMD_HDR }
          (if q = 0 then [.comment cm] else [])
      else .ok { st with comment := cm, comment_idx := idx } []
  | .SKIP_BYTES =>
      let k := (st.chskip + 4294967295) % 4294967296
      if k = 0 then .ok { st with chskip := k, state := .CMD_HDR } []
      else .ok { st with chskip := k } []
  | .EXTRA_BYTES =>
      .ok { st with extra_bytes := (st.extra_bytes + 1) % 4294967296 } []

/-- Outcome of running the `while` loop over a chunk of input:
either an early `return` with code `code` (carrying the bytes copied to
the output file so far, the report lines so far, the trace of
(state-at-read, byte) pairs, and the unread input), or the loop
consumed the chunk and the locals are `st`. -/
inductive COut where
  | err (code : Nat) (copied : List Nat) (rep : List RLine)
        (trace : List (CmdState × Nat)) (rest : List Nat)
  | ok (st : CmdSt) (copied : List Nat) (rep : List RLine)
       (trace : List (CmdState × Nat))
deriving DecidableEq, Repr

/-- Prepend already-produced copied bytes, report lines and trace
entries to the outcome of the rest of a run. -/
def prependCs (cp : List Nat) (rep : List RLine)
    (tr : List (CmdState × Nat)) : COut → COut
  | .err c cp2 rep2 tr2 rest => .err c (cp ++ cp2) (rep ++ rep2) (tr ++ tr2) rest
  | .ok st2 cp2 rep2 tr2 => .ok st2 (cp ++ cp2) (rep ++ rep2) (tr ++ tr2)

/-- Run the `while ((ch = fgetc(infile)) != -1)` loop of `process_file`
from locals `st` over the given bytes.  Before the `switch`, each byte
is copied to the output file when `state != EXTRA_BYTES` (the
`OutputFile` guard: `copied` is what is written when an output file was
supplied).  The trace records the state in which each byte was read. -/
def cmdConsume (q : Nat) (st : CmdSt) : List Nat → COut
  | [] => .ok st [] [] []
  | ch :: bs =>
      let cp : List Nat := if st.state = .EXTRA_BYTES then [] else [ch]
      match cmdStep q st ch with
      | .err code rep => .err code cp rep [(st.state, ch)] bs
      | .ok st' rep =>
          prependCs cp rep [(st.state, ch)] (cmdConsume q st' bs)

/-- Result of a full run of `process_file`: returned `int`, bytes
copied to the output file, report lines printed, read trace, unread
input. -/
structure CmdRes where
  code : Nat
  copied : List Nat
  report : List RLine
  trace : List (CmdState × Nat)
  rest : List Nat
deriving DecidableEq, Repr

/-- The report block after the loop: `if (Quiet < 2)`, the extraneous
byte count (when nonzero) and "CMD file looks good!". -/
def finalReport (q : Nat) (st : CmdSt) : List RLine :=
  if q < 2 then
    (if st.extra_bytes ≠ 0 then [.extraneous st.extra_bytes] else []) ++
      [.looksGood]
  else []

/-- A full run of `process_file` in stripcmd.c on an input byte stream. -/
def cmdRun (q : Nat) (input : List Nat) : CmdRes :=
  match cmdConsume q cmdInit input with
  | .err c cp rep tr rest => ⟨c, cp, rep, tr, rest⟩
  | .ok st cp rep tr => ⟨0, cp, rep ++ finalReport q st, tr, []⟩

/-- The input-source selection of `process_args` in stripcmd.c: the
named input file is opened exactly when a first positional operand is
present and `argv[optind][0] != '-' && argv[optind][1] != '\0'`.  The
operand is modelled as the list of its bytes (C string without the NUL
terminator); indexing one past the end reads the terminator `0`. -/
def opensInputFile : Option (List Nat) → Bool
  | none => false
  | some s => (s.headD 0 != 45) && (s.getD 1 0 != 0)

/-- The parser state of an outcome that consumed its whole chunk;
`none` when the run returned early. -/
def outState : COut → Option CmdState
  | .ok st _ _ _ => some st.state
  | .err _ _ _ _ _ => none

/-- The parser state after a chunk of input that the loop consumes
without an early return, starting from locals `st`; `none` when the
run returned early. -/
def stateAfter (q : Nat) (st : CmdSt) (bs : List Nat) : Option CmdState :=
  outState (cmdConsume q st bs)

end Stripcmd

namespace Edtasm

theorem prependOut_prependOut (a b : List Nat) (r : ERes) :
    prependOut a (prependOut b r) = prependOut (a ++ b) r := by
  simp [prependOut]

theorem erun_cons_cont {sn sh cv : Bool} {st st' : ESt} {ch : Nat}
    {out : List Nat} (bs : List Nat)
    (h : estep sn sh cv st ch = .cont st' out) :
    erun sn sh cv st (ch :: bs) = prependOut out (erun sn sh cv st' bs) := by
  simp [erun, h, prependOut]

theorem erun_cons_halt {sn sh cv : Bool} {st : ESt} {ch code : Nat}
    {r : EReason} (bs : List Nat)
    (h : estep sn sh cv st ch = .halt code r) :
    erun sn sh cv st (ch :: bs) = ⟨code, [], r, bs⟩ := by
  simp [erun, h]

theorem erun_fname_skip (sn cv : Bool) (a b c d e f : Nat) (l t : Nat)
    (rest : List Nat) :
    erun sn false cv ⟨.fname, 0, l, t⟩ (a :: b :: c :: d :: e :: f :: rest) =
      erun sn false cv ⟨.linenum, 0, l, t⟩ rest := by
  simp [erun, estep, prependOut]

theorem erun_digits (sn sh cv : Bool) (f t : Nat) (n1 n2 n3 n4 n5 : Nat)
    (rest : List Nat) (h1 : LINENUMCHAR n1) (h2 : LINENUMCHAR n2)
    (h3 : LINENUMCHAR n3) (h4 : LINENUMCHAR n4) (h5 : LINENUMCHAR n5) :
    erun sn sh cv ⟨.linenum, f, 0, t⟩ (n1 :: n2 :: n3 :: n4 :: n5 :: rest) =
      prependOut
        (if sn then
          [n1, n2, n3, n4, n5].map (fun b => Nat.land b 0x7f) else [])
        (erun sn sh cv ⟨.linetxt, f, 0, t⟩ rest) := by
  cases sn <;>
    simp [erun, estep, linenumCase, h1, h2, h3, h4, h5, prependOut]

theorem erun_sep (sn sh cv : Bool) (f l : Nat) (s : Nat) (rest : List Nat)
    (hs : s = 32 ∨ s = 9) :
    erun sn sh cv ⟨.linetxt, f, l, 0⟩ (s :: rest) =
      prependOut (if sn then [if s = 32 ∧ cv then 9 else s] else [])
        (erun sn sh cv ⟨.linetxt, f, l, 1⟩ rest) := by
  have h : estep sn sh cv ⟨.linetxt, f, l, 0⟩ s =
      .cont ⟨.linetxt, f, l, 1⟩ (if sn then [if s = 32 ∧ cv then 9 else s] else []) := by
    simp [estep, hs]
  exact erun_cons_cont rest h

theorem erun_text (sn sh cv : Bool) (f l : Nat) (text : List Nat)
    (rest : List Nat) (k : Nat) (hk : k ≠ 0)
    (ht : ∀ b ∈ text, b ≠ EOLCHAR) :
    erun sn sh cv ⟨.linetxt, f, l, k⟩ (text ++ EOLCHAR :: rest) =
      prependOut (text ++ [10])
        (erun sn sh cv ⟨.linenum, f, l, 0⟩ rest) := by
  induction text generalizing k with
  | nil =>
      have h : estep sn sh cv ⟨.linetxt, f, l, k⟩ EOLCHAR =
          .cont ⟨.linenum, f, l, 0⟩ [10] := by
        simp [estep, hk, EOLCHAR]
      simpa [prependOut] using erun_cons_cont rest h
  | cons b tb ih =>
      have hb : b ≠ EOLCHAR := ht b (by simp)
      have h : estep sn sh cv ⟨.linetxt, f, l, k⟩ b =
          .cont ⟨.linetxt, f, l, k + 1⟩ [b] := by
        simp [estep, hk, hb]
      have := erun_cons_cont (tb ++ EOLCHAR :: rest) h
      rw [List.cons_append, this,
        ih (k + 1) (Nat.succ_ne_zero k) (fun x hx => ht x (by simp [hx])),
        prependOut_prependOut]
      simp

theorem erun_rec (sn cv : Bool) (r : LineRec) (rest : List Nat)
    (hr : wfRec r) :
    erun sn false cv ⟨.linenum, 0, 0, 0⟩ (encRec r ++ rest) =
      prependOut (lineOut sn cv r)
        (erun sn false cv ⟨.linenum, 0, 0, 0⟩ rest) := by
  obtain ⟨hlen, hnums, hsep, htext⟩ := hr
  obtain ⟨nums, s, text⟩ := r
  simp only at hlen hnums hsep htext
  match nums, hlen with
  | [n1, n2, n3, n4, n5], _ =>
    have h1 := hnums n1 (by simp)
    have h2 := hnums n2 (by simp)
    have h3 := hnums n3 (by simp)
    have h4 := hnums n4 (by simp)
    have h5 := hnums n5 (by simp)
    simp only [encRec, List.cons_append, List.nil_append, List.append_assoc]
    rw [erun_digits sn false cv 0 0 n1 n2 n3 n4 n5 _ h1 h2 h3 h4 h5,
      erun_sep sn false cv 0 0 s _ hsep,
      erun_text sn false cv 0 0 text rest 1 one_ne_zero htext,
      prependOut_prependOut, prependOut_prependOut]
    cases sn <;> simp [lineOut]

theorem erun_recs (sn cv : Bool) (recs : List LineRec)
    (h : ∀ r ∈ recs, wfRec r) :
    erun sn false cv ⟨.linenum, 0, 0, 0⟩ (encRecs recs ++ [EOFCHAR]) =
      ⟨0, outRecs sn cv recs, .sentinel, []⟩ := by
  induction recs with
  | nil =>
      have hh : estep sn false cv ⟨.linenum, 0, 0, 0⟩ EOFCHAR =
          .halt 0 .sentinel := by
        simp [estep, linenumCase, LINENUMCHAR, EOFCHAR]
      simpa [encRecs, outRecs] using erun_cons_halt ([] : List Nat) hh
  | cons r rs ih =>
      rw [encRecs, List.append_assoc,
        erun_rec sn cv r _ (h r (by simp)),
        ih (fun x hx => h x (by simp [hx]))]
      simp [prependOut, outRecs]

theorem erun_file (sn cv : Bool) (fn : List Nat) (recs : List LineRec)
    (hfn : fn.length = 6) (h : ∀ r ∈ recs, wfRec r) :
    erun sn false cv eInit (encFile fn recs) =
      ⟨0, outRecs sn cv recs, .sentinel, []⟩ := by
  match fn, hfn with
  | [a, b, c, d, e, f], _ =>
    have hh : estep sn false cv eInit HEADERCHAR = .cont ⟨.fname, 0, 0, 0⟩ [] := by
      simp [estep, eInit]
    show erun sn false cv eInit
        (HEADERCHAR :: ([a, b, c, d, e, f] ++ (encRecs recs ++ [EOFCHAR]))) = _
    rw [erun_cons_cont _ hh]
    show prependOut []
        (erun sn false cv ⟨.fname, 0, 0, 0⟩
          (a :: b :: c :: d :: e :: f :: (encRecs recs ++ [EOFCHAR]))) = _
    rw [erun_fname_skip, erun_recs sn cv recs h]
    simp [prependOut]

theorem estep_halt_code {sn sh cv : Bool} {st : ESt} {ch code : Nat}
    {r : EReason} (h : estep sn sh cv st ch = .halt code r) :
    (code = 0 ∧ r = .sentinel) ∨ (code = 2 ∧ r ≠ .exhausted ∧ r ≠ .sentinel) := by
  obtain ⟨s, f, l, t⟩ := st
  cases s <;> simp only [estep, linenumCase] at h <;> split_ifs at h <;>
    (try simp_all) <;> (obtain ⟨rfl, rfl⟩ := h; simp)

theorem erun_code_zero_iff (sn sh cv : Bool) (st : ESt) (bs : List Nat) :
    (erun sn sh cv st bs).code = 0 ↔
      (erun sn sh cv st bs).reason = .exhausted ∨
        (erun sn sh cv st bs).reason = .sentinel := by
  induction bs generalizing st with
  | nil => simp [erun]
  | cons ch bs ih =>
      cases h : estep sn sh cv st ch with
      | halt code r =>
          rw [erun_cons_halt bs h]
          rcases estep_halt_code h with ⟨hc, hr⟩ | ⟨hc, hr1, hr2⟩ <;>
            subst hc <;> simp_all
      | cont st' out =>
          rw [erun_cons_cont bs h]
          simpa [prependOut] using ih st'

theorem outRecs_strip_sep (cv cv' : Bool) (recs : List LineRec)
    (σ : LineRec → Nat) :
    outRecs false cv (recs.map fun r => ⟨r.nums, σ r, r.text⟩) =
      outRecs false cv' recs := by
  induction recs with
  | nil => rfl
  | cons r rs ih => simp [outRecs, lineOut, ih]

example :
    erun true false false eInit
      (encFile [65, 66, 67, 32, 32, 32]
        [⟨[0xb0, 0xb0, 0xb1, 0xb0, 0xb0], 32, [76, 68, 32, 65]⟩]) =
      ⟨0, [48, 48, 49, 48, 48, 32, 76, 68, 32, 65, 10], .sentinel, []⟩ := by
  decide

example :
    erun false false true eInit
      (encFile [65, 66, 67, 32, 32, 32]
        [⟨[0xb0, 0xb0, 0xb1, 0xb0, 0xb0], 32, [76, 68, 32, 65]⟩]) =
      ⟨0, [76, 68, 32, 65, 10], .sentinel, []⟩ := by
  decide

/-- C1: on a valid 7-byte header (0xD3 plus 6 filename bytes) followed
by well-formed line records and the sentinel 0x1A, the converter with
default options (line numbers shown, no header display, no conversion)
returns 0 and writes, for each record in order, the 5 line-number bytes
with the high bit cleared, the original separator byte, the original
text bytes, and a single newline. -/
theorem default_roundtrip (fn : List Nat) (recs : List LineRec)
    (hfn : fn.length = 6) (h : ∀ r ∈ recs, wfRec r) :
    erun true false false eInit (encFile fn recs) =
      ⟨0, outRecs true false recs, .sentinel, []⟩ ∧
    ∀ r ∈ recs, lineOut true false r =
      r.nums.map (fun b => Nat.land b 0x7f) ++ [r.sep] ++ r.text ++ [10] := by
  refine ⟨erun_file true false fn recs hfn h, ?_⟩
  intro r _
  simp [lineOut]

/-- Witness for `default_roundtrip` at a concrete two-line file. -/
theorem default_roundtrip_witness :
    erun true false false eInit
      (encFile [84, 69, 83, 84, 32, 32]
        [⟨[0xb0, 0xb0, 0xb1, 0xb0, 0xb0], 32, [76, 68, 32, 65]⟩,
         ⟨[0xb0, 0xb0, 0xb2, 0xb0, 0xb0], 9, [82, 69, 84]⟩]) =
      ⟨0, outRecs true false
        [⟨[0xb0, 0xb0, 0xb1, 0xb0, 0xb0], 32, [76, 68, 32, 65]⟩,
         ⟨[0xb0, 0xb0, 0xb2, 0xb0, 0xb0], 9, [82, 69, 84]⟩], .sentinel, []⟩ ∧
    ∀ r ∈ [(⟨[0xb0, 0xb0, 0xb1, 0xb0, 0xb0], 32, [76, 68, 32, 65]⟩ : LineRec),
           ⟨[0xb0, 0xb0, 0xb2, 0xb0, 0xb0], 9, [82, 69, 84]⟩],
      lineOut true false r =
        r.nums.map (fun b => Nat.land b 0x7f) ++ [r.sep] ++ r.text ++ [10] :=
  default_roundtrip [84, 69, 83, 84, 32, 32]
    [⟨[0xb0, 0xb0, 0xb1, 0xb0, 0xb0], 32, [76, 68, 32, 65]⟩,
     ⟨[0xb0, 0xb0, 0xb2, 0xb0, 0xb0], 9, [82, 69, 84]⟩]
    (by decide) (by decide)

/-- C6: on the same well-formed inputs, the strip-line-numbers run
returns 0 and emits only the text lines, each followed by a newline;
per line this equals the default-option output line with its first 6
characters (5 digits plus separator) removed. -/
theorem strip_drop_six (fn : List Nat) (recs : List LineRec)
    (hfn : fn.length = 6) (h : ∀ r ∈ recs, wfRec r) :
    erun false false false eInit (encFile fn recs) =
      ⟨0, outRecs false false recs, .sentinel, []⟩ ∧
    erun true false false eInit (encFile fn recs) =
      ⟨0, outRecs true false recs, .sentinel, []⟩ ∧
    (∀ r ∈ recs, lineOut false false r = r.text ++ [10]) ∧
    ∀ r ∈ recs, lineOut false false r = List.drop 6 (lineOut true false r) := by
  refine ⟨erun_file false false fn recs hfn h,
    erun_file true false fn recs hfn h, ?_, ?_⟩
  · intro r _
    simp [lineOut]
  · intro r hr
    obtain ⟨hlen, -, -, -⟩ := h r hr
    obtain ⟨nums, s, text⟩ := r
    simp only at hlen
    match nums, hlen with
    | [n1, n2, n3, n4, n5], _ => rfl

/-- Witness for `strip_drop_six` at a concrete one-line file. -/
theorem strip_drop_six_witness :
    erun false false false eInit
      (encFile [84, 69, 83, 84, 32, 32]
        [⟨[0xb0, 0xb0, 0xb1, 0xb0, 0xb0], 32, [76, 68, 32, 65]⟩]) =
      ⟨0, outRecs false false
        [⟨[0xb0, 0xb0, 0xb1, 0xb0, 0xb0], 32, [76, 68, 32, 65]⟩],
        .sentinel, []⟩ ∧
    erun true false false eInit
      (encFile [84, 69, 83, 84, 32, 32]
        [⟨[0xb0, 0xb0, 0xb1, 0xb0, 0xb0], 32, [76, 68, 32, 65]⟩]) =
      ⟨0, outRecs true false
        [⟨[0xb0, 0xb0, 0xb1, 0xb0, 0xb0], 32, [76, 68, 32, 65]⟩],
        .sentinel, []⟩ ∧
    (∀ r ∈ [(⟨[0xb0, 0xb0, 0xb1, 0xb0, 0xb0], 32, [76, 68, 32, 65]⟩ : LineRec)],
      lineOut false false r = r.text ++ [10]) ∧
    ∀ r ∈ [(⟨[0xb0, 0xb0, 0xb1, 0xb0, 0xb0], 32, [76, 68, 32, 65]⟩ : LineRec)],
      lineOut false false r = List.drop 6 (lineOut true false r) :=
  strip_drop_six [84, 69, 83, 84, 32, 32]
    [⟨[0xb0, 0xb0, 0xb1, 0xb0, 0xb0], 32, [76, 68, 32, 65]⟩]
    (by decide) (by decide)

/-- C7: with line numbers shown and the convert option, a space
separator is rewritten to a tab in every output line; with line numbers
stripped, the output is independent of both the convert flag and the
separator bytes of the input records. -/
theorem convert_sep_noninterference (fn : List Nat) (recs : List LineRec)
    (hfn : fn.length = 6) (h : ∀ r ∈ recs, wfRec r) :
    ((∀ r ∈ recs, r.sep = 32) →
      erun true false true eInit (encFile fn recs) =
        ⟨0, outRecs true true recs, .sentinel, []⟩ ∧
      ∀ r ∈ recs, lineOut true true r =
        r.nums.map (fun b => Nat.land b 0x7f) ++ [9] ++ r.text ++ [10]) ∧
    ∀ σ : LineRec → Nat, (∀ r ∈ recs, σ r = 32 ∨ σ r = 9) →
      ∀ cv cv' : Bool,
        erun false false cv eInit (encFile fn recs) =
          erun false false cv' eInit
            (encFile fn (recs.map fun r => ⟨r.nums, σ r, r.text⟩)) := by
  constructor
  · intro hsp
    refine ⟨erun_file true true fn recs hfn h, ?_⟩
    intro r hr
    simp [lineOut, hsp r hr]
  · intro σ hσ cv cv'
    have h' : ∀ r ∈ recs.map fun r => (⟨r.nums, σ r, r.text⟩ : LineRec),
        wfRec r := by
      intro r hr
      rw [List.mem_map] at hr
      obtain ⟨r0, hr0, rfl⟩ := hr
      obtain ⟨ha, hb, -, hd⟩ := h r0 hr0
      exact ⟨ha, hb, hσ r0 hr0, hd⟩
    rw [erun_file false cv fn recs hfn h,
      erun_file false cv' fn _ hfn h',
      outRecs_strip_sep cv' cv recs σ]

/-- Witness for `convert_sep_noninterference` at a concrete one-line
space-separated file. -/
theorem convert_sep_noninterference_witness :
    (erun true false true eInit
      (encFile [84, 69, 83, 84, 32, 32]
        [⟨[0xb0, 0xb0, 0xb1, 0xb0, 0xb0], 32, [76, 68, 32, 65]⟩]) =
      ⟨0, outRecs true true
        [⟨[0xb0, 0xb0, 0xb1, 0xb0, 0xb0], 32, [76, 68, 32, 65]⟩],
        .sentinel, []⟩) ∧
    erun false false true eInit
      (encFile [84, 69, 83, 84, 32, 32]
        [⟨[0xb0, 0xb0, 0xb1, 0xb0, 0xb0], 32, [76, 68, 32, 65]⟩]) =
      erun false false false eInit
        (encFile [84, 69, 83, 84, 32, 32]
          (([⟨[0xb0, 0xb0, 0xb1, 0xb0, 0xb0], 32, [76, 68, 32, 65]⟩] :
              List LineRec).map
            fun r => (⟨r.nums, 9, r.text⟩ : LineRec))) := by
  have h := convert_sep_noninterference [84, 69, 83, 84, 32, 32]
    [⟨[0xb0, 0xb0, 0xb1, 0xb0, 0xb0], 32, [76, 68, 32, 65]⟩]
    (by decide) (by decide)
  exact ⟨(h.1 (by decide)).1,
    h.2 (fun _ => 9) (fun _ _ => Or.inr rfl) true false⟩

/-- C8: the converter returns 0 in exactly two non-error ways: input
exhaustion in any state, and the sentinel byte 0x1A read where a
line-number byte is expected (at any digit position); every run
returning 0 ended at one of those two program points. -/
theorem clean_termination_iff (sn sh cv : Bool) (st : ESt)
    (rest input : List Nat) :
    erun sn sh cv st [] = ⟨0, [], .exhausted, []⟩ ∧
    (st.state = .linenum →
      erun sn sh cv st (EOFCHAR :: rest) = ⟨0, [], .sentinel, rest⟩) ∧
    ((erun sn sh cv eInit input).code = 0 ↔
      (erun sn sh cv eInit input).reason = .exhausted ∨
        (erun sn sh cv eInit input).reason = .sentinel) := by
  refine ⟨rfl, ?_, erun_code_zero_iff sn sh cv eInit input⟩
  intro hst
  obtain ⟨s, f, l, t⟩ := st
  simp only at hst
  subst hst
  have h : estep sn sh cv ⟨.linenum, f, l, t⟩ EOFCHAR = .halt 0 .sentinel := by
    simp [estep, linenumCase, LINENUMCHAR, EOFCHAR]
  exact erun_cons_halt rest h

/-- Witness for `clean_termination_iff`: sentinel at the third digit
position of a line number. -/
theorem clean_termination_iff_witness :
    erun true false false ⟨.linenum, 0, 2, 0⟩ (EOFCHAR :: [1, 2]) =
      ⟨0, [], .sentinel, [1, 2]⟩ :=
  (clean_termination_iff true false false ⟨.linenum, 0, 2, 0⟩ [1, 2] []).2.1 rfl

/-- C10: in the line-text state, after the separator byte every byte
that is not 0x0D is echoed verbatim and processing continues — the byte
0x1A included; 0x1A terminates the run cleanly only in the line-number
state. -/
theorem text_echo_verbatim (sn sh cv : Bool) (st : ESt) (ch : Nat)
    (rest : List Nat) (hst : st.state = .linetxt) (htl : st.tlcc ≠ 0)
    (hch : ch ≠ EOLCHAR) :
    erun sn sh cv st (ch :: rest) =
      prependOut [ch] (erun sn sh cv { st with tlcc := st.tlcc + 1 } rest) ∧
    erun sn sh cv st (EOFCHAR :: rest) =
      prependOut [EOFCHAR]
        (erun sn sh cv { st with tlcc := st.tlcc + 1 } rest) ∧
    ∀ st' : ESt, st'.state = .linenum →
      erun sn sh cv st' (EOFCHAR :: rest) = ⟨0, [], .sentinel, rest⟩ := by
  obtain ⟨s, f, l, t⟩ := st
  simp only at hst htl
  subst hst
  refine ⟨?_, ?_, ?_⟩
  · have h : estep sn sh cv ⟨.linetxt, f, l, t⟩ ch =
        .cont ⟨.linetxt, f, l, t + 1⟩ [ch] := by
      simp [estep, htl, hch]
    exact erun_cons_cont rest h
  · have h : estep sn sh cv ⟨.linetxt, f, l, t⟩ EOFCHAR =
        .cont ⟨.linetxt, f, l, t + 1⟩ [EOFCHAR] := by
      simp [estep, htl, EOFCHAR, EOLCHAR]
    exact erun_cons_cont rest h
  · intro st' hst'
    obtain ⟨s', f', l', t'⟩ := st'
    simp only at hst'
    subst hst'
    have h : estep sn sh cv ⟨.linenum, f', l', t'⟩ EOFCHAR =
        .halt 0 .sentinel := by
      simp [estep, linenumCase, LINENUMCHAR, EOFCHAR]
    exact erun_cons_halt rest h

/-- Witness for `text_echo_verbatim`: the byte 0x41 and the sentinel
byte 0x1A are both echoed inside line text. -/
theorem text_echo_verbatim_witness :
    erun true false false ⟨.linetxt, 0, 0, 2⟩ (65 :: [13]) =
      prependOut [65] (erun true false false ⟨.linetxt, 0, 0, 3⟩ [13]) ∧
    erun true false false ⟨.linetxt, 0, 0, 2⟩ (EOFCHAR :: [13]) =
      prependOut [EOFCHAR] (erun true false false ⟨.linetxt, 0, 0, 3⟩ [13]) ∧
    ∀ st' : ESt, st'.state = .linenum →
      erun true false false st' (EOFCHAR :: [13]) = ⟨0, [], .sentinel, [13]⟩ :=
  text_echo_verbatim true false false ⟨.linetxt, 0, 0, 2⟩ 65 [13]
    rfl (by decide) (by decide)

end Edtasm

namespace Stripcmd

theorem prependCs_nil (o : COut) : prependCs [] [] [] o = o := by
  cases o <;> simp [prependCs]

theorem prependCs_prependCs (a b c d e f : _) (o : COut) :
    prependCs a b c (prependCs d e f o) =
      prependCs (a ++ d) (b ++ e) (c ++ f) o := by
  cases o <;> simp [prependCs]

theorem outState_prependCs (cp : List Nat) (rep : List RLine)
    (tr : List (CmdState × Nat)) (o : COut) :
    outState (prependCs cp rep tr o) = outState o := by
  cases o <;> simp [prependCs, outState]

theorem cmdConsume_cons_ok {q : Nat} {st st' : CmdSt} {ch : Nat}
    {rep : List RLine} (bs : List Nat)
    (h : cmdStep q st ch = .ok st' rep) :
    cmdConsume q st (ch :: bs) =
      prependCs (if st.state = .EXTRA_BYTES then [] else [ch]) rep
        [(st.state, ch)] (cmdConsume q st' bs) := by
  simp [cmdConsume, h]

theorem cmdConsume_cons_err {q : Nat} {st : CmdSt} {ch code : Nat}
    {rep : List RLine} (bs : List Nat)
    (h : cmdStep q st ch = .err code rep) :
    cmdConsume q st (ch :: bs) =
      .err code (if st.state = .EXTRA_BYTES then [] else [ch]) rep
        [(st.state, ch)] bs := by
  simp [cmdConsume, h]

theorem cmdConsume_append_ok {q : Nat} {st st' : CmdSt}
    {cp : List Nat} {rep : List RLine} {tr : List (CmdState × Nat)}
    {xs : List Nat} (ys : List Nat)
    (h : cmdConsume q st xs = .ok st' cp rep tr) :
    cmdConsume q st (xs ++ ys) =
      prependCs cp rep tr (cmdConsume q st' ys) := by
  induction xs generalizing st cp rep tr with
  | nil =>
      simp only [cmdConsume] at h
      cases h
      simp [prependCs_nil]
  | cons x xs ih =>
      cases hstep : cmdStep q st x with
      | err code rep0 =>
          rw [cmdConsume_cons_err xs hstep] at h
          cases h
      | ok st1 rep1 =>
          rw [cmdConsume_cons_ok xs hstep] at h
          cases hrec : cmdConsume q st1 xs with
          | err c cp2 rep2 tr2 rest =>
              rw [hrec] at h
              simp [prependCs] at h
          | ok st2 cp2 rep2 tr2 =>
              rw [hrec] at h
              simp only [prependCs] at h
              cases h
              rw [List.cons_append, cmdConsume_cons_ok (xs ++ ys) hstep,
                ih hrec, prependCs_prependCs]

theorem cmdStep_extra {q : Nat} {st : CmdSt} {ch : Nat}
    (h : st.state = .EXTRA_BYTES) :
    cmdStep q st ch =
      .ok { st with extra_bytes := (st.extra_bytes + 1) % 4294967296 } [] := by
  obtain ⟨s, a, b, c, d, e, f, g, i, j, k⟩ := st
  simp only at h
  subst h
  rfl

theorem cmdConsume_extra (q : Nat) (st : CmdSt) (bs : List Nat)
    (hst : st.state = .EXTRA_BYTES)
    (hex : st.extra_bytes < 4294967296) :
    cmdConsume q st bs =
      .ok { st with extra_bytes := (st.extra_bytes + bs.length) % 4294967296 }
        [] [] (bs.map fun b => (.EXTRA_BYTES, b)) := by
  induction bs generalizing st with
  | nil =>
      simp only [cmdConsume, List.length_nil, Nat.add_zero, List.map_nil]
      congr 1
      · cases st
        simp [Nat.mod_eq_of_lt hex]
  | cons b bs ih =>
      rw [cmdConsume_cons_ok bs (cmdStep_extra hst), if_pos hst,
        ih _ (by simp [hst]) (by simp [Nat.mod_lt])]
      simp [prependCs, hst, Nat.mod_add_mod]
      congr 1
      omega

end Stripcmd

namespace Stripcmd

theorem cmdStep_to_extra {q : Nat} {st st' : CmdSt} {ch : Nat}
    {rep : List RLine} (hst : st.state ≠ .EXTRA_BYTES)
    (h : cmdStep q st ch = .ok st' rep)
    (hst' : st'.state = .EXTRA_BYTES) : st'.extra_bytes = 0 := by
  obtain ⟨s, a, b, c, d, e, f, g, i, j, k⟩ := st
  cases s <;> simp only [cmdStep] at h <;> (try split_ifs at h) <;>
    (try cases h) <;> simp_all

theorem cmdConsume_err_consumed (q : Nat) (bs : List Nat) :
    ∀ st : CmdSt, st.state ≠ .EXTRA_BYTES →
      ∀ c cp rep tr rest, cmdConsume q st bs = .err c cp rep tr rest →
        cp ++ rest = bs := by
  induction bs with
  | nil =>
      intro st hst c cp rep tr rest h
      simp [cmdConsume] at h
  | cons b bs ih =>
      intro st hst c cp rep tr rest h
      cases hstep : cmdStep q st b with
      | err code rep0 =>
          rw [cmdConsume_cons_err bs hstep, if_neg hst] at h
          cases h
          rfl
      | ok st1 rep1 =>
          rw [cmdConsume_cons_ok bs hstep, if_neg hst] at h
          cases hrec : cmdConsume q st1 bs with
          | ok st2 cp2 rep2 tr2 =>
              rw [hrec] at h
              simp [prependCs] at h
          | err c2 cp2 rep2 tr2 rest2 =>
              rw [hrec] at h
              simp only [prependCs] at h
              cases h
              by_cases hx : st1.state = .EXTRA_BYTES
              · have h0 := cmdStep_to_extra hst hstep hx
                rw [cmdConsume_extra q st1 bs hx (by rw [h0]; norm_num)] at hrec
                cases hrec
              · have := ih st1 hx _ _ _ _ _ hrec
                simp [this]

theorem cmdConsume_copied_all (q : Nat) (bs : List Nat) :
    ∀ st : CmdSt, st.state ≠ .EXTRA_BYTES → bs.length < 4294967296 →
      ∀ st' cp rep tr, cmdConsume q st bs = .ok st' cp rep tr →
        st'.state = .EXTRA_BYTES → st'.extra_bytes = 0 → cp = bs := by
  induction bs with
  | nil =>
      intro st hst hlen st' cp rep tr h h1 h2
      simp only [cmdConsume] at h
      cases h
      rfl
  | cons b bs ih =>
      intro st hst hlen st' cp rep tr h h1 h2
      cases hstep : cmdStep q st b with
      | err code rep0 =>
          rw [cmdConsume_cons_err bs hstep, if_neg hst] at h
          cases h
      | ok st1 rep1 =>
          rw [cmdConsume_cons_ok bs hstep, if_neg hst] at h
          cases hrec : cmdConsume q st1 bs with
          | err c2 cp2 rep2 tr2 rest2 =>
              rw [hrec] at h
              simp [prependCs] at h
          | ok st2 cp2 rep2 tr2 =>
              rw [hrec] at h
              simp only [prependCs] at h
              cases h
              by_cases hx : st1.state = .EXTRA_BYTES
              · have h0 := cmdStep_to_extra hst hstep hx
                rw [cmdConsume_extra q st1 bs hx (by rw [h0]; norm_num)] at hrec
                cases hrec
                have h0' : (st1.extra_bytes + bs.length) % 4294967296 = 0 := by
                  simpa using h2
                have hlen' : bs.length < 4294967296 := by
                  simp only [List.length_cons] at hlen
                  omega
                have hb : bs.length = 0 := by
                  rw [h0] at h0'
                  omega
                have hbs : bs = [] := List.length_eq_zero.mp hb
                subst hbs
                simp
              · have := ih st1 hx (by simpa using Nat.lt_of_succ_lt hlen)
                  _ _ _ _ hrec h1 h2
                simp [this]

theorem cmdConsume_copied_filter (q : Nat) (bs : List Nat) :
    ∀ st : CmdSt,
      (∀ st' cp rep tr, cmdConsume q st bs = .ok st' cp rep tr →
        cp = (tr.filter fun p => decide (p.1 ≠ CmdState.EXTRA_BYTES)).map
          Prod.snd) ∧
      (∀ c cp rep tr rest, cmdConsume q st bs = .err c cp rep tr rest →
        cp = (tr.filter fun p => decide (p.1 ≠ CmdState.EXTRA_BYTES)).map
          Prod.snd) := by
  induction bs with
  | nil =>
      intro st
      constructor
      · intro st' cp rep tr h
        simp only [cmdConsume] at h
        cases h
        rfl
      · intro c cp rep tr rest h
        simp [cmdConsume] at h
  | cons b bs ih =>
      intro st
      constructor
      · intro st' cp rep tr h
        cases hstep : cmdStep q st b with
        | err code rep0 =>
            rw [cmdConsume_cons_err bs hstep] at h
            cases h
        | ok st1 rep1 =>
            rw [cmdConsume_cons_ok bs hstep] at h
            cases hrec : cmdConsume q st1 bs with
            | err c2 cp2 rep2 tr2 rest2 =>
                rw [hrec] at h
                simp [prependCs] at h
            | ok st2 cp2 rep2 tr2 =>
                rw [hrec] at h
                simp only [prependCs] at h
                cases h
                have h2 := (ih st1).1 _ _ _ _ hrec
                by_cases hx : st.state = .EXTRA_BYTES <;> simp [hx, h2]
      · intro c cp rep tr rest h
        cases hstep : cmdStep q st b with
        | err code rep0 =>
            rw [cmdConsume_cons_err bs hstep] at h
            cases h
            by_cases hx : st.state = .EXTRA_BYTES <;> simp [hx]
        | ok st1 rep1 =>
            rw [cmdConsume_cons_ok bs hstep] at h
            cases hrec : cmdConsume q st1 bs with
            | ok st2 cp2 rep2 tr2 =>
                rw [hrec] at h
                simp [prependCs] at h
            | err c2 cp2 rep2 tr2 rest2 =>
                rw [hrec] at h
                simp only [prependCs] at h
                cases h
                have h2 := (ih st1).2 _ _ _ _ _ hrec
                by_cases hx : st.state = .EXTRA_BYTES <;> simp [hx, h2]

theorem cmdStep_skip {q : Nat} {st : CmdSt} {ch : Nat}
    (h : st.state = .SKIP_BYTES) :
    cmdStep q st ch =
      (if (st.chskip + 4294967295) % 4294967296 = 0 then
        .ok { st with chskip := (st.chskip + 4294967295) % 4294967296,
                      state := .CMD_HDR } []
      else .ok { st with chskip := (st.chskip + 4294967295) % 4294967296 } []) := by
  obtain ⟨s, a, b, c, d, e, f, g, i, j, k⟩ := st
  simp only at h
  subst h
  rfl

theorem cmdConsume_skip_exact (q : Nat) (payload : List Nat) :
    ∀ st : CmdSt, st.state = .SKIP_BYTES → st.chskip = payload.length →
      0 < payload.length → payload.length < 4294967296 →
      cmdConsume q st payload =
        .ok { st with chskip := 0, state := .CMD_HDR } payload []
          (payload.map fun b => (.SKIP_BYTES, b)) := by
  induction payload with
  | nil =>
      intro st _ _ h0 _
      simp at h0
  | cons b bs ih =>
      intro st hst hk h0 hM
      have hdec : (st.chskip + 4294967295) % 4294967296 = bs.length := by
        simp only [List.length_cons] at hk hM
        omega
      cases hbs : bs with
      | nil =>
          subst hbs
          have hs : cmdStep q st b =
              .ok { st with chskip := 0, state := .CMD_HDR } [] := by
            rw [cmdStep_skip hst, hdec]
            simp
          rw [cmdConsume_cons_ok [] hs, hst]
          simp [cmdConsume, prependCs, hst]
      | cons b2 bs2 =>
          have hne : bs.length ≠ 0 := by rw [hbs]; simp
          have hs : cmdStep q st b =
              .ok { st with chskip := bs.length } [] := by
            rw [cmdStep_skip hst, hdec, if_neg hne]
          rw [← hbs]
          rw [cmdConsume_cons_ok bs hs,
            ih { st with chskip := bs.length } (by simp [hst]) (by simp)
              (by rw [hbs]; simp) (by simp only [List.length_cons] at hM; omega)]
          simp [prependCs, hst]

theorem cmdConsume_skip_short (q : Nat) (payload : List Nat) :
    ∀ st : CmdSt, st.state = .SKIP_BYTES →
      payload.length < st.chskip → st.chskip < 4294967296 →
      cmdConsume q st payload =
        .ok { st with chskip := st.chskip - payload.length } payload []
          (payload.map fun b => (.SKIP_BYTES, b)) := by
  induction payload with
  | nil =>
      intro st hst _ _
      simp [cmdConsume]
  | cons b bs ih =>
      intro st hst hk hM
      have hdec : (st.chskip + 4294967295) % 4294967296 = st.chskip - 1 := by
        simp only [List.length_cons] at hk
        omega
      have hne : st.chskip - 1 ≠ 0 := by
        simp only [List.length_cons] at hk
        omega
      have hs : cmdStep q st b = .ok { st with chskip := st.chskip - 1 } [] := by
        rw [cmdStep_skip hst, hdec, if_neg hne]
      rw [cmdConsume_cons_ok bs hs,
        ih { st with chskip := st.chskip - 1 } (by simp [hst])
          (by simp only [List.length_cons] at hk; simp; omega) (by simp; omega)]
      have harith : st.chskip - 1 - bs.length = st.chskip - (bs.length + 1) := by
        omega
      simp [prependCs, hst, harith]

end Stripcmd

namespace Stripcmd

example :
    cmdRun 0 [0x02, 0x02, 0x34, 0x12, 9, 9, 9, 9, 9] =
      ⟨0, [0x02, 0x02, 0x34, 0x12],
        [.xferAddr 0x1234, .extraneous 5, .looksGood],
        [(.CMD_HDR, 2), (.XFER_LEN, 2), (.XFER_ADDRLO, 0x34),
         (.XFER_ADDRHI, 0x12), (.EXTRA_BYTES, 9), (.EXTRA_BYTES, 9),
         (.EXTRA_BYTES, 9), (.EXTRA_BYTES, 9), (.EXTRA_BYTES, 9)], []⟩ := by
  decide

example : opensInputFile (some [45]) = false := by decide
example : opensInputFile (some [102, 111, 111]) = true := by decide

/-- C2: every byte read outside the `EXTRA_BYTES` state is mirrored to
the output copy in order and no byte read in `EXTRA_BYTES` is copied;
hence for a stream that reaches `EXTRA_BYTES` exactly at the end of a
prefix `pre`, appending `trail` trailing bytes yields exit 0, a copy
equal to `pre` alone, and (at quiet level < 2, when `trail` is
nonempty) a report containing the trailing-byte count. -/
theorem copy_strips_trailing (q : Nat) (pre trail : List Nat)
    (st : CmdSt) (cp : List Nat) (rep : List RLine)
    (tr : List (CmdState × Nat))
    (hpre : cmdConsume q cmdInit pre = .ok st cp rep tr)
    (hx : st.state = .EXTRA_BYTES) (hex : st.extra_bytes = 0)
    (hlen : pre.length < 4294967296) (hlen2 : trail.length < 4294967296) :
    (cmdRun q (pre ++ trail)).code = 0 ∧
    (cmdRun q (pre ++ trail)).copied = pre ∧
    (trail ≠ [] → q < 2 →
      RLine.extraneous trail.length ∈ (cmdRun q (pre ++ trail)).report) ∧
    ∀ input : List Nat,
      (cmdRun q input).copied =
        ((cmdRun q input).trace.filter
          fun p => decide (p.1 ≠ CmdState.EXTRA_BYTES)).map Prod.snd := by
  have hinitne : cmdInit.state ≠ CmdState.EXTRA_BYTES := by decide
  have hcp : cp = pre :=
    cmdConsume_copied_all q pre cmdInit hinitne hlen st cp rep tr hpre hx hex
  have htrail := cmdConsume_extra q st trail hx (by rw [hex]; norm_num)
  have happ := cmdConsume_append_ok (q := q) trail hpre
  rw [htrail] at happ
  refine ⟨?_, ?_, ?_, ?_⟩
  · unfold cmdRun
    rw [happ]
    simp [prependCs]
  · unfold cmdRun
    rw [happ]
    simp [prependCs, hcp]
  · intro hne hq
    unfold cmdRun
    rw [happ]
    simp only [prependCs]
    have hlen0 : trail.length ≠ 0 := by simpa using hne
    have hextra : ({ st with extra_bytes :=
        (st.extra_bytes + trail.length) % 4294967296 } : CmdSt).extra_bytes =
          trail.length := by
      simp [hex, Nat.mod_eq_of_lt hlen2]
    simp [finalReport, hq, hextra, hlen0]
    refine Or.inr ⟨?_, ?_⟩ <;> rw [hex] <;>
      simp [Nat.mod_eq_of_lt hlen2, hlen0]
  · intro input
    unfold cmdRun
    cases hc : cmdConsume q cmdInit input with
    | ok st2 cp2 rep2 tr2 =>
        simpa using (cmdConsume_copied_filter q input cmdInit).1 _ _ _ _ hc
    | err c2 cp2 rep2 tr2 rest2 =>
        simpa using (cmdConsume_copied_filter q input cmdInit).2 _ _ _ _ _ hc

/-- Witness for `copy_strips_trailing`: a transfer-address record
followed by 5 trailing bytes, as in the spec's example. -/
theorem copy_strips_trailing_witness :
    (cmdRun 0 ([2, 2, 52, 18] ++ [9, 9, 9, 9, 9])).code = 0 ∧
    (cmdRun 0 ([2, 2, 52, 18] ++ [9, 9, 9, 9, 9])).copied = [2, 2, 52, 18] ∧
    (([9, 9, 9, 9, 9] : List Nat) ≠ [] → (0 : Nat) < 2 →
      RLine.extraneous ([9, 9, 9, 9, 9] : List Nat).length ∈
        (cmdRun 0 ([2, 2, 52, 18] ++ [9, 9, 9, 9, 9])).report) ∧
    ∀ input : List Nat,
      (cmdRun 0 input).copied =
        ((cmdRun 0 input).trace.filter
          fun p => decide (p.1 ≠ CmdState.EXTRA_BYTES)).map Prod.snd :=
  copy_strips_trailing 0 [2, 2, 52, 18] [9, 9, 9, 9, 9]
    ⟨.EXTRA_BYTES, 0, 4660, [], 0, 0, [], 0, 0, 0, 0⟩
    [2, 2, 52, 18] [.xferAddr 4660]
    [(.CMD_HDR, 2), (.XFER_LEN, 2), (.XFER_ADDRLO, 52), (.XFER_ADDRHI, 18)]
    (by decide) rfl rfl (by decide) (by decide)

/-- C3 counterexample: the single-character operand "x" (byte 0x78) is
not the literal "-" (byte 0x2d), yet `process_args` does not open it;
it falls through to standard input because `argv[optind][1]` is the
NUL terminator. -/
theorem stdin_selection_cx :
    opensInputFile (some [120]) = false ∧ ([120] : List Nat) ≠ [45] := by
  decide

/-- C3 (amended): the input is standard input exactly when the first
positional operand is absent, or begins with `-`, or is a single
character; only operands of length at least 2 not starting with `-`
are opened as files. -/
theorem stdin_selection (s : List Nat) (hnz : (0 : Nat) ∉ s) (hne : s ≠ []) :
    opensInputFile none = false ∧
    (opensInputFile (some s) = false ↔ s.headD 0 = 45 ∨ s.length = 1) := by
  refine ⟨rfl, ?_⟩
  match s with
  | [a] => simp [opensInputFile]
  | a :: b :: t =>
      have hb : b ≠ 0 := by
        intro hb
        exact hnz (by simp [hb])
      simp [opensInputFile, hb]

/-- Witness for `stdin_selection`: the operand "foo" is opened as a
file (so it is not standard input). -/
theorem stdin_selection_witness :
    opensInputFile none = false ∧
    (opensInputFile (some [102, 111, 111]) = false ↔
      ([102, 111, 111] : List Nat).headD 0 = 45 ∨
        ([102, 111, 111] : List Nat).length = 1) :=
  stdin_selection [102, 111, 111] (by decide) (by decide)

/-- C4 (code divergence at length 0): after a filename record with
length byte 0 and one further byte, the parser is still in
`FNAMEREC_NAME` (the post-increment index 1 never equals the stored
length 0, so the record does not end after zero name bytes); with
length byte 1 it returns to `CMD_HDR` as specified.  The comment
record diverges the same way. -/
theorem fnamerec_zero_len_divergence :
    stateAfter 0 cmdInit [FNAMEREC, 0, 65] = some .FNAMEREC_NAME ∧
    stateAfter 0 cmdInit [FNAMEREC, 1, 65] = some .CMD_HDR ∧
    stateAfter 0 cmdInit [COMMREC, 0, 65] = some .COMMREC_STRING := by
  decide

/-- C5: the load-block length decoding maps stated length `n` to
`n + 254` when `n < 3` and to `n - 2` otherwise (0,1,2 ↦ 254,255,256
and 3,255 ↦ 1,253), and a load block with exactly `BLK_LEN n` payload
bytes returns the parser to `CMD_HDR`, while fewer payload bytes leave
it in `SKIP_BYTES`. -/
theorem load_block_length_decode (q n lo hi : Nat) (payload : List Nat)
    (st0 : CmdSt) (hst : st0.state = .CMD_HDR) (hn : n < 256) :
    (BLK_LEN 0 = 254 ∧ BLK_LEN 1 = 255 ∧ BLK_LEN 2 = 256 ∧
      BLK_LEN 3 = 1 ∧ BLK_LEN 255 = 253) ∧
    (payload.length = BLK_LEN n →
      stateAfter q st0 (LOADBLK :: n :: lo :: hi :: payload) =
        some .CMD_HDR) ∧
    (payload.length < BLK_LEN n →
      stateAfter q st0 (LOADBLK :: n :: lo :: hi :: payload) =
        some .SKIP_BYTES) := by
  obtain ⟨s, a, b, c, d, e, f, g, i, j, k⟩ := st0
  simp only at hst
  subst hst
  have hblt : BLK_LEN n < 65536 := by unfold BLK_LEN; split <;> omega
  have hpos : 0 < BLK_LEN n := by unfold BLK_LEN; split <;> omega
  have hmod : BLK_LEN n % 65536 = BLK_LEN n := Nat.mod_eq_of_lt hblt
  have s1 : cmdStep q ⟨.CMD_HDR, a, b, c, d, e, f, g, i, j, k⟩ LOADBLK =
      .ok ⟨.LOADBLK_LEN, a, b, c, d, e, f, g, i, j, k⟩ [] := rfl
  have s2 : cmdStep q ⟨.LOADBLK_LEN, a, b, c, d, e, f, g, i, j, k⟩ n =
      .ok ⟨.LOADBLK_ADDRLO, a, b, c, d, e, f, g, i,
        BLK_LEN n % 65536, k⟩ [] := rfl
  have s3 : cmdStep q
      ⟨.LOADBLK_ADDRLO, a, b, c, d, e, f, g, i, BLK_LEN n % 65536, k⟩ lo =
      .ok ⟨.LOADBLK_ADDRHI, lo, b, c, d, e, f, g, i,
        BLK_LEN n % 65536, k⟩ [] := rfl
  have s4 : cmdStep q
      ⟨.LOADBLK_ADDRHI, lo, b, c, d, e, f, g, i, BLK_LEN n % 65536, k⟩ hi =
      .ok ⟨.SKIP_BYTES, Nat.lor lo (hi <<< 8) % 65536, b, c, d, e, f, g, i,
        BLK_LEN n % 65536, k⟩
        (if q = 0 then
          [.loadAddr (Nat.lor lo (hi <<< 8) % 65536) (BLK_LEN n % 65536)]
        else []) := rfl
  refine ⟨by decide, ?_, ?_⟩
  · intro hlenp
    unfold stateAfter
    rw [cmdConsume_cons_ok _ s1, cmdConsume_cons_ok _ s2,
      cmdConsume_cons_ok _ s3, cmdConsume_cons_ok _ s4,
      cmdConsume_skip_exact q payload
        ⟨.SKIP_BYTES, Nat.lor lo (hi <<< 8) % 65536, b, c, d, e, f, g, i,
          BLK_LEN n % 65536, k⟩
        rfl (by rw [show (⟨.SKIP_BYTES, Nat.lor lo (hi <<< 8) % 65536, b, c,
            d, e, f, g, i, BLK_LEN n % 65536, k⟩ : CmdSt).chskip =
            BLK_LEN n % 65536 from rfl, hmod, hlenp])
        (by rw [hlenp]; exact hpos) (by rw [hlenp]; omega),
      outState_prependCs, outState_prependCs, outState_prependCs,
      outState_prependCs]
    rfl
  · intro hlt
    unfold stateAfter
    rw [cmdConsume_cons_ok _ s1, cmdConsume_cons_ok _ s2,
      cmdConsume_cons_ok _ s3, cmdConsume_cons_ok _ s4,
      cmdConsume_skip_short q payload
        ⟨.SKIP_BYTES, Nat.lor lo (hi <<< 8) % 65536, b, c, d, e, f, g, i,
          BLK_LEN n % 65536, k⟩
        rfl (by rw [show (⟨.SKIP_BYTES, Nat.lor lo (hi <<< 8) % 65536, b, c,
            d, e, f, g, i, BLK_LEN n % 65536, k⟩ : CmdSt).chskip =
            BLK_LEN n % 65536 from rfl, hmod]; exact hlt)
        (by rw [show (⟨.SKIP_BYTES, Nat.lor lo (hi <<< 8) % 65536, b, c,
            d, e, f, g, i, BLK_LEN n % 65536, k⟩ : CmdSt).chskip =
            BLK_LEN n % 65536 from rfl, hmod]; omega),
      outState_prependCs, outState_prependCs, outState_prependCs,
      outState_prependCs]
    rfl

/-- Witness for `load_block_length_decode`: a load block with stated
length 10 (8 payload bytes) parses back to `CMD_HDR`. -/
theorem load_block_length_decode_witness :
    stateAfter 0 cmdInit
      (LOADBLK :: 10 :: 0 :: 128 :: [1, 2, 3, 4, 5, 6, 7, 8]) =
      some .CMD_HDR :=
  (load_block_length_decode 0 10 0 128 [1, 2, 3, 4, 5, 6, 7, 8] cmdInit
    rfl (by decide)).2.1 (by decide)

/-- C9: when `process_file` returns 2 (a format error), every byte
read up to and including the offending byte has already been mirrored
to the output copy: the copied bytes followed by the unread input
reconstitute the whole input, so the partial copy is exactly the
consumed prefix and is left in place. -/
theorem err_exit_keeps_consumed (q : Nat) (input : List Nat)
    (h : (cmdRun q input).code = 2) :
    (cmdRun q input).copied ++ (cmdRun q input).rest = input := by
  unfold cmdRun at h ⊢
  cases hc : cmdConsume q cmdInit input with
  | ok st2 cp2 rep2 tr2 =>
      rw [hc] at h
      simp at h
  | err c2 cp2 rep2 tr2 rest2 =>
      simpa using
        cmdConsume_err_consumed q input cmdInit (by decide) _ _ _ _ _ hc

/-- Witness for `err_exit_keeps_consumed`: a bad header byte 0x00; the
offending byte is copied, the remaining byte is not consumed. -/
theorem err_exit_keeps_consumed_witness :
    (cmdRun 0 [0, 153]).code = 2 ∧
    (cmdRun 0 [0, 153]).copied ++ (cmdRun 0 [0, 153]).rest = [0, 153] :=
  ⟨by decide, err_exit_keeps_consumed 0 [0, 153] (by decide)⟩

end Stripcmd
